import Mathlib

/-!
Verification of the `imaginary` complex-number library (src/src/lib.rs).

The library implements `Complex<T>` with algebraic operators, an IEEE-754
floating-point specialization for `f32`/`f64` (sqrt, cbrt, abs, angle, cis,
trigonometry), and free-function quadratic/cubic root solvers (`c32`/`c64`
modules).

Shallow embedding used here:

* Floating-point values are modelled value-level by `F`: NaN, signed
  infinities, signed zeros, and nonzero finite dyadic numbers `m * 2^e`
  (mantissa `m : ℤ`, exponent `e : ℤ`).  A format `Fmt` carries the
  precision and exponent range of the IEEE binary format (`f64fmt`,
  `f32fmt`), and all arithmetic is "compute the exact rational result, then
  round to nearest, ties to even, with overflow to infinity and gradual
  underflow" — exactly the IEEE-754 semantics Rust guarantees for
  `+ - * /` and `sqrt` on `f32`/`f64`.
* Library functions Rust delegates to the platform libm (`hypot`, `atan2`,
  `cos`, `sin`, scalar `cbrt`), which IEEE does not specify exactly, are
  opaque parameters collected in a `Libm` record; theorems quantify over
  them (adding explicitly stated, platform-guaranteed hypotheses where a
  claim needs them).
* Rust panics (the `assert!`s of `quad`/`cubic`) are modelled by
  `Except Unit`; all other operations are total, as in Rust, where float
  arithmetic never panics.

All computations are executable with `decide` (integer arithmetic only;
the few unbounded searches use structural fuel far above any value
reachable from the exponent ranges of `f32`/`f64`).
-/

set_option maxRecDepth 1000000

namespace Imaginary

/-- IEEE binary format parameters: significand width in bits, the exponent
of the smallest positive (subnormal) value, and the overflow exponent
(magnitudes `≥ 2^emax` become infinite). -/
structure Fmt where
  prec : ℕ
  emin : ℤ
  emax : ℤ
deriving DecidableEq

/-- The `f64` format: 53-bit significand, subnormals down to `2^-1074`,
overflow at `2^1024`. -/
def f64fmt : Fmt := ⟨53, -1074, 1024⟩

/-- The `f32` format: 24-bit significand, subnormals down to `2^-149`,
overflow at `2^128`. -/
def f32fmt : Fmt := ⟨24, -149, 128⟩

/-- A floating-point datum: NaN (all NaN payloads identified), a signed
infinity, a signed zero, or a nonzero finite value `m * 2^e`.  The sign
bool is `true` for negative.  The representation of finite values is not
required to be normalized; every operation below produces a deterministic
representative. -/
inductive F where
  | nan : F
  | inf : Bool → F
  | zero : Bool → F
  | nz : ℤ → ℤ → F
deriving DecidableEq

/-- Bit length of a natural number, with structural fuel (first argument).
`bitlenF fuel n = ⌊log2 n⌋ + 1` for `0 < n < 2^fuel`, and `0` for `n = 0`. -/
def bitlenF : ℕ → ℕ → ℕ
  | 0, _ => 0
  | fuel+1, n => if n = 0 then 0 else bitlenF fuel (n / 2) + 1

/-- Bit length.  The fuel 4600 is far above the ≈2300 bits that any
mantissa reachable from the `f32`/`f64` exponent ranges can have. -/
def bitlen (n : ℕ) : ℕ := bitlenF 4600 n

/-- Integer square root by Newton iteration with structural fuel; returns
the current iterate when it stops decreasing, which is `⌊√n⌋` when started
at `x = n ≥ 1` with enough fuel. -/
def isqrtF : ℕ → ℕ → ℕ → ℕ
  | 0, _, x => x
  | fuel+1, n, x =>
    let y := (x + n / x) / 2
    if y < x then isqrtF fuel n y else x

/-- Integer square root `⌊√n⌋` (for the value ranges reachable here). -/
def isqrt (n : ℕ) : ℕ := if n ≤ 1 then n else isqrtF 4600 n n

/-- Round the exact ratio `a / b` to the nearest integer, ties to even
(`b ≠ 0` at every call site). -/
def rneRatio (a b : ℕ) : ℕ :=
  let q := a / b
  let r := a % b
  if 2 * r < b then q
  else if b < 2 * r then q + 1
  else if q % 2 = 0 then q else q + 1

/-- Pack a rounded magnitude `n * 2^g` with sign `s` into an `F`, turning
overflow (`n * 2^g ≥ 2^emax`) into an infinity and a zero magnitude into a
signed zero. -/
def packF (φ : Fmt) (s : Bool) (n : ℕ) (g : ℤ) : F :=
  let d : ℤ := φ.emax - g
  if d ≤ 0 then .inf s
  else if 2 ^ d.toNat ≤ n then .inf s
  else if n = 0 then .zero s
  else .nz (if s then -(n : ℤ) else (n : ℤ)) g

/-- Round the exact nonzero value `(-1)^s * a * 2^e` to the format: find
the target grid exponent `g` (clamped below by `emin`, which produces
gradual underflow), round the scaled magnitude to nearest-even, and pack. -/
def roundM (φ : Fmt) (s : Bool) (a : ℕ) (e : ℤ) : F :=
  if a = 0 then .zero false
  else
    let g : ℤ := max (e + bitlen a - φ.prec) φ.emin
    let n : ℕ := if g ≤ e then a * 2 ^ (e - g).toNat else rneRatio a (2 ^ (g - e).toNat)
    packF φ s n g

/-- Round the exact value `m * 2^e` to the format. -/
def roundI (φ : Fmt) (m : ℤ) (e : ℤ) : F :=
  roundM φ (decide (m < 0)) m.natAbs e

namespace F

/-- NaN test (`f64::is_nan`). -/
def isNaN : F → Bool
  | .nan => true
  | _ => false

/-- Infinity test. -/
def isInf : F → Bool
  | .inf _ => true
  | _ => false

/-- Zero-value test. -/
def isZero : F → Bool
  | .zero _ => true
  | _ => false

/-- Finite (neither NaN nor infinite). -/
def isFinite : F → Bool
  | .nan => false
  | .inf _ => false
  | _ => true

/-- The sign bit; `false` for NaN (the library never reads a NaN's sign). -/
def sgn : F → Bool
  | .nan => false
  | .inf s => s
  | .zero s => s
  | .nz m _ => decide (m < 0)

end F

/-- Rust unary `-` on floats: exact sign flip, including on zeros and NaN. -/
def fneg : F → F
  | .nan => .nan
  | .inf s => .inf (!s)
  | .zero s => .zero (!s)
  | .nz m e => .nz (-m) e

/-- Value equality of two dyadics `m1 * 2^e1 = m2 * 2^e2`. -/
def deqD (m1 e1 m2 e2 : ℤ) : Bool :=
  if e1 ≤ e2 then decide (m1 = m2 * 2 ^ (e2 - e1).toNat)
  else decide (m1 * 2 ^ (e1 - e2).toNat = m2)

/-- Value order of two dyadics `m1 * 2^e1 < m2 * 2^e2`. -/
def dltD (m1 e1 m2 e2 : ℤ) : Bool :=
  if e1 ≤ e2 then decide (m1 < m2 * 2 ^ (e2 - e1).toNat)
  else decide (m1 * 2 ^ (e1 - e2).toNat < m2)

/-- IEEE `==` on floats (Rust `PartialEq` for `f32`/`f64`): NaN is unequal
to everything, `-0.0 == 0.0`, otherwise value equality. -/
def feq : F → F → Bool
  | .nan, _ => false
  | _, .nan => false
  | .inf s, .inf t => s = t
  | .inf _, _ => false
  | _, .inf _ => false
  | .zero _, .zero _ => true
  | .zero _, .nz m _ => decide (m = 0)
  | .nz m _, .zero _ => decide (m = 0)
  | .nz m1 e1, .nz m2 e2 => deqD m1 e1 m2 e2

/-- IEEE `<` on floats: false whenever an operand is NaN. -/
def flt : F → F → Bool
  | .nan, _ => false
  | _, .nan => false
  | .inf s, .inf t => s && !t
  | .inf s, _ => s
  | _, .inf t => !t
  | .zero _, .zero _ => false
  | .zero _, .nz m _ => decide (0 < m)
  | .nz m _, .zero _ => decide (m < 0)
  | .nz m1 e1, .nz m2 e2 => dltD m1 e1 m2 e2

/-- IEEE `<=`. -/
def fle (x y : F) : Bool := flt x y || feq x y

/-- IEEE `>=` (Rust `x >= y`). -/
def fge (x y : F) : Bool := fle y x

/-- Rust `f64::abs`. -/
def fabs : F → F
  | .nan => .nan
  | .inf _ => .inf false
  | .zero _ => .zero false
  | .nz m e => .nz (m.natAbs : ℤ) e

/-- Rust `f64::copysign`: the magnitude of the first operand with the sign
of the second. -/
def copysign (x y : F) : F :=
  let s := y.sgn
  match x with
  | .nan => .nan
  | .inf _ => .inf s
  | .zero _ => .zero s
  | .nz m e => .nz (if s then -(m.natAbs : ℤ) else (m.natAbs : ℤ)) e

/-- IEEE addition: exact sum, then round.  An exact zero sum gives `+0`
(round-to-nearest), except `-0 + -0 = -0`; adding a zero to a finite
nonzero value returns that value unchanged. -/
def fadd (φ : Fmt) : F → F → F
  | .nan, _ => .nan
  | _, .nan => .nan
  | .inf s, .inf t => if s = t then .inf s else .nan
  | .inf s, _ => .inf s
  | _, .inf t => .inf t
  | .zero s, .zero t => .zero (s && t)
  | .zero _, .nz m e => .nz m e
  | .nz m e, .zero _ => .nz m e
  | .nz m1 e1, .nz m2 e2 =>
    let e := min e1 e2
    let M := m1 * 2 ^ (e1 - e).toNat + m2 * 2 ^ (e2 - e).toNat
    if M = 0 then .zero false else roundI φ M e

/-- IEEE subtraction, defined (as in IEEE-754) as addition of the negated
second operand. -/
def fsub (φ : Fmt) (x y : F) : F := fadd φ x (fneg y)

/-- IEEE multiplication: exact product, then round; sign is the XOR of the
operand signs, `0 * ∞ = NaN`. -/
def fmul (φ : Fmt) : F → F → F
  | .nan, _ => .nan
  | _, .nan => .nan
  | .inf s, .inf t => .inf (s != t)
  | .inf _, .zero _ => .nan
  | .zero _, .inf _ => .nan
  | .inf s, .nz m _ => .inf (s != decide (m < 0))
  | .nz m _, .inf t => .inf (decide (m < 0) != t)
  | .zero s, .zero t => .zero (s != t)
  | .zero s, .nz m _ => .zero (s != decide (m < 0))
  | .nz m _, .zero t => .zero (decide (m < 0) != t)
  | .nz m1 e1, .nz m2 e2 =>
    if m1 * m2 = 0 then .zero (decide (m1 < 0) != decide (m2 < 0))
    else roundI φ (m1 * m2) (e1 + e2)

/-- Correctly rounded quotient of two nonzero finite values
`m1 * 2^e1 / (m2 * 2^e2)`: locate the result's binade, scale, and round
the integer ratio to nearest-even. -/
def divRound (φ : Fmt) (m1 e1 m2 e2 : ℤ) : F :=
  let s := decide (m1 < 0) != decide (m2 < 0)
  let a := m1.natAbs
  let b := m2.natAbs
  let t : ℤ := (bitlen a : ℤ) - (bitlen b : ℤ)
  let L : ℤ :=
    if 0 ≤ t then (if b * 2 ^ t.toNat ≤ a then t else t - 1)
    else (if b ≤ a * 2 ^ (-t).toNat then t else t - 1)
  let g : ℤ := max (L + (e1 - e2) - ((φ.prec : ℤ) - 1)) φ.emin
  let sh : ℤ := e1 - e2 - g
  let n : ℕ :=
    if 0 ≤ sh then rneRatio (a * 2 ^ sh.toNat) b
    else rneRatio a (b * 2 ^ (-sh).toNat)
  packF φ s n g

/-- IEEE division: `±x/0 = ±∞`, `0/0 = ∞/∞ = NaN`, `x/∞ = ±0`, otherwise
the correctly rounded quotient. -/
def fdiv (φ : Fmt) : F → F → F
  | .nan, _ => .nan
  | _, .nan => .nan
  | .inf _, .inf _ => .nan
  | .inf s, .zero t => .inf (s != t)
  | .inf s, .nz m _ => .inf (s != decide (m < 0))
  | .zero s, .inf t => .zero (s != t)
  | .zero _, .zero _ => .nan
  | .zero s, .nz m _ => .zero (s != decide (m < 0))
  | .nz m _, .inf t => .zero (decide (m < 0) != t)
  | .nz m _, .zero t => .inf (decide (m < 0) != t)
  | .nz m1 e1, .nz m2 e2 =>
    if m1 = 0 then .zero (decide (m1 < 0) != decide (m2 < 0))
    else if m2 = 0 then .inf (decide (m1 < 0) != decide (m2 < 0))
    else divRound φ m1 e1 m2 e2

/-- Correctly rounded square root of the positive value `a * 2^e`
(`a ≠ 0`): choose the result grid from the half-exponent, scale to an
integer `t` with `√t` on that grid, and round `√t` to nearest (a tie is
impossible when the scaling is exact, as it is for every representable
input). -/
def sqrtPos (φ : Fmt) (a : ℕ) (e : ℤ) : F :=
  let L : ℤ := e + (bitlen a : ℤ) - 1
  let g : ℤ := max (L.fdiv 2 - ((φ.prec : ℤ) - 1)) φ.emin
  let sh : ℤ := e - 2 * g
  let t : ℕ := if 0 ≤ sh then a * 2 ^ sh.toNat else a / 2 ^ (-sh).toNat
  let r0 := isqrt t
  let n : ℕ :=
    if 4 * t < (2 * r0 + 1) ^ 2 then r0
    else if (2 * r0 + 1) ^ 2 < 4 * t then r0 + 1
    else if r0 % 2 = 0 then r0 else r0 + 1
  packF φ false n g

/-- Rust `f64::sqrt` (IEEE correctly rounded): NaN for negative arguments,
`sqrt(±0) = ±0`, `sqrt(∞) = ∞`. -/
def sqrtF (φ : Fmt) : F → F
  | .nan => .nan
  | .inf s => if s then .nan else .inf false
  | .zero s => .zero s
  | .nz m e =>
    if m < 0 then .nan
    else if m = 0 then .zero false
    else sqrtPos φ m.natAbs e

/-- The struct `Complex<T>` of the library: real and imaginary parts. -/
structure Complex (T : Type) where
  r : T
  i : T
deriving DecidableEq

/-- Conversion `From<T> for Complex<T>`: the imaginary part is
`T::default()`, which is `+0.0` for floats. -/
def Complex.fromF (x : F) : Complex F := ⟨x, .zero false⟩

/-- The complex conjugate `Complex::conj`: `(r, -i)`. -/
def Complex.conj (z : Complex F) : Complex F := ⟨z.r, fneg z.i⟩

/-- Unary negation `Neg for Complex<T>`: `(-r, -i)`. -/
def Complex.neg (z : Complex F) : Complex F := ⟨fneg z.r, fneg z.i⟩

/-- Addition `Add for Complex<T>`: componentwise. -/
def Complex.add (φ : Fmt) (a b : Complex F) : Complex F :=
  ⟨fadd φ a.r b.r, fadd φ a.i b.i⟩

/-- Subtraction `Sub for Complex<T>`: componentwise. -/
def Complex.sub (φ : Fmt) (a b : Complex F) : Complex F :=
  ⟨fsub φ a.r b.r, fsub φ a.i b.i⟩

/-- Multiplication `Mul for Complex<T>`:
`(a.r*b.r - a.i*b.i, a.r*b.i + a.i*b.r)`. -/
def Complex.mul (φ : Fmt) (a b : Complex F) : Complex F :=
  ⟨fsub φ (fmul φ a.r b.r) (fmul φ a.i b.i),
   fadd φ (fmul φ a.r b.i) (fmul φ a.i b.r)⟩

/-- Division `Div for Complex<T>`: `denom = b.r*b.r + b.i*b.i`, result
`((a.r*b.r + a.i*b.i)/denom, (a.i*b.r - a.r*b.i)/denom)`. -/
def Complex.div (φ : Fmt) (a b : Complex F) : Complex F :=
  let denom := fadd φ (fmul φ b.r b.r) (fmul φ b.i b.i)
  ⟨fdiv φ (fadd φ (fmul φ a.r b.r) (fmul φ a.i b.i)) denom,
   fdiv φ (fsub φ (fmul φ a.i b.r) (fmul φ a.r b.i)) denom⟩

/-- Derived `PartialEq` of `Complex<T>` at a float scalar: componentwise
IEEE `==`. -/
def Complex.eq (z w : Complex F) : Bool := feq z.r w.r && feq z.i w.i

/-- Mixed operator `f64 + Complex<f64>`: `(x + z.r, z.i)`. -/
def addFC (φ : Fmt) (x : F) (z : Complex F) : Complex F := ⟨fadd φ x z.r, z.i⟩

/-- Mixed operator `Complex<f64> + f64`: `(z.r + x, z.i)`. -/
def addCF (φ : Fmt) (z : Complex F) (x : F) : Complex F := ⟨fadd φ z.r x, z.i⟩

/-- Mixed operator `f64 - Complex<f64>`: `(x - z.r, -z.i)`. -/
def subFC (φ : Fmt) (x : F) (z : Complex F) : Complex F := ⟨fsub φ x z.r, fneg z.i⟩

/-- Mixed operator `Complex<f64> - f64`: `(z.r - x, z.i)`. -/
def subCF (φ : Fmt) (z : Complex F) (x : F) : Complex F := ⟨fsub φ z.r x, z.i⟩

/-- Mixed operator `f64 * Complex<f64>`: `(x * z.r, x * z.i)`. -/
def mulFC (φ : Fmt) (x : F) (z : Complex F) : Complex F :=
  ⟨fmul φ x z.r, fmul φ x z.i⟩

/-- Mixed operator `Complex<f64> * f64`: `(z.r * x, z.i * x)`. -/
def mulCF (φ : Fmt) (z : Complex F) (x : F) : Complex F :=
  ⟨fmul φ z.r x, fmul φ z.i x⟩

/-- Mixed operator `f64 / Complex<f64>`:
`denom = z.r*z.r + z.i*z.i`, result `(x*z.r/denom, -x*z.i/denom)` (the
Rust expression `-self * rhs.i / denom` groups as `((-x)*z.i)/denom`). -/
def divFC (φ : Fmt) (x : F) (z : Complex F) : Complex F :=
  let denom := fadd φ (fmul φ z.r z.r) (fmul φ z.i z.i)
  ⟨fdiv φ (fmul φ x z.r) denom, fdiv φ (fmul φ (fneg x) z.i) denom⟩

/-- Mixed operator `Complex<f64> / f64`: componentwise `(z.r/x, z.i/x)`. -/
def divCF (φ : Fmt) (z : Complex F) (x : F) : Complex F :=
  ⟨fdiv φ z.r x, fdiv φ z.i x⟩

/-- The platform libm functions the library delegates to.  IEEE-754 and
Rust do not pin their results down to the last bit, so theorems quantify
over this record. -/
structure Libm where
  hypot : F → F → F
  atan2 : F → F → F
  cos : F → F
  sin : F → F
  cbrt : F → F

/-- Magnitude `Complex::abs`: `self.r.hypot(self.i)`. -/
def Complex.abs (L : Libm) (z : Complex F) : F := L.hypot z.r z.i

/-- Argument `Complex::angle`: `self.i.atan2(self.r)`. -/
def Complex.angle (L : Libm) (z : Complex F) : F := L.atan2 z.i z.r

/-- Euler form `Complex::cis`: `(cos θ, sin θ)`. -/
def Complex.cis (L : Libm) (θ : F) : Complex F := ⟨L.cos θ, L.sin θ⟩

/-- The constant `FRAC_1_SQRT_2` of `std`, per format: the representable
value nearest `1/√2`, i.e. the correctly rounded square root of `0.5`. -/
def frac1sqrt2 (φ : Fmt) : F := sqrtF φ (.nz 1 (-1))

/-- Principal square root `Complex::sqrt` (lib.rs lines 481-501): on the
real axis split on the sign of `x` (keeping the sign of `y` via the
returned `y` or `copysign`); off the axis use the half-angle formula with
`x_num = abs(z) + x`, falling back to the `x_num == 0` branch on the
negative real axis limit. -/
def Complex.sqrt (φ : Fmt) (L : Libm) (z : Complex F) : Complex F :=
  let x := z.r
  let y := z.i
  if feq y (.zero false) then
    if fge x (.zero false) then ⟨sqrtF φ x, y⟩
    else ⟨.zero false, copysign (sqrtF φ (fneg x)) y⟩
  else
    let r := Complex.abs L z
    let xnum := fadd φ r x
    if !feq xnum (.zero false) then
      let xrt := sqrtF φ xnum
      mulCF φ ⟨xrt, fdiv φ y xrt⟩ (frac1sqrt2 φ)
    else
      let xrt := sqrtF φ (fneg x)
      ⟨fdiv φ (fmul φ (.nz 1 (-1)) (fabs y)) xrt, copysign xrt y⟩

/-- Cube root `Complex::cbrt` (lib.rs lines 505-514): trig-based initial
estimate `r^(1/3) * cis(angle/3)` (zero if that magnitude is zero),
polished by one Newton step for `w³ - z = 0`. -/
def Complex.cbrt (φ : Fmt) (L : Libm) (z : Complex F) : Complex F :=
  let r := L.cbrt (Complex.abs L z)
  if feq r (.zero false) then ⟨.zero false, .zero false⟩
  else
    let theta := fdiv φ (Complex.angle L z) (.nz 3 0)
    let cbrt := mulFC φ r (Complex.cis L theta)
    let cbrtSq := Complex.mul φ cbrt cbrt
    Complex.sub φ cbrt
      (Complex.div φ (Complex.sub φ (Complex.mul φ cbrt cbrtSq) z)
        (mulFC φ (.nz 3 0) cbrtSq))

/-- Free function `c64::sqrt` / `c32::sqrt`: complex square root of a
float, `(√x, 0)` for `x ≥ 0` and `(0, √(-x))` otherwise. -/
def msqrt (φ : Fmt) (sq : F) : Complex F :=
  if fge sq (.zero false) then ⟨sqrtF φ sq, .zero false⟩
  else ⟨.zero false, sqrtF φ (fneg sq)⟩

/-- The constant `SQRT_3` of the `c32`/`c64` modules: its decimal literal
agrees with `√3` to 35 digits, so it is the representable value nearest
`√3` in either format, i.e. the correctly rounded square root of `3`. -/
def sqrt3 (φ : Fmt) : F := sqrtF φ (.nz 3 0)

/-- The constant `CBRT_1 = (-0.5, 0.5 * SQRT_3)` of the `c32`/`c64`
modules (the multiplication is evaluated with IEEE semantics, and is exact
since it only decrements the exponent). -/
def CBRT1 (φ : Fmt) : Complex F := ⟨.nz (-1) (-1), fmul φ (.nz 1 (-1)) (sqrt3 φ)⟩

/-- Free function `c64::quad` / `c32::quad` (lib.rs lines 704-714).
The two `assert!`s become `Except.error`; afterwards the code is total.
`4.0 * a * c` groups as `(4.0 * a) * c`; `dom = 0.5 / a`; the roots are
`(-b ± sqrt) * dom` with the mixed `f64 ± Complex` and `Complex * f64`
operators. -/
def quad (φ : Fmt) (a b c : F) : Except Unit (Complex F × Complex F) :=
  if a.isNaN || b.isNaN || c.isNaN then .error ()
  else if feq a (.zero false) then .error ()
  else
    let sq := msqrt φ (fsub φ (fmul φ b b) (fmul φ (fmul φ (.nz 1 2) a) c))
    let dom := fdiv φ (.nz 1 (-1)) a
    .ok (mulCF φ (addFC φ (fneg b) sq) dom, mulCF φ (subFC φ (fneg b) sq) dom)

/-- The Newton-polish loop body of `cubic` (lib.rs lines 738-761), applied
to one candidate root `w`. -/
def cubicPolish (φ : Fmt) (L : Libm) (a2 a1 a0 po3 a2o3 : F) (w : Complex F) :
    Complex F :=
  let z0 := subCF φ (Complex.sub φ w (divFC φ po3 w)) a2o3
  let zsq := Complex.mul φ z0 z0
  let f := addCF φ (Complex.add φ (Complex.add φ (Complex.mul φ z0 zsq)
    (mulFC φ a2 zsq)) (mulFC φ a1 z0)) a0
  let fAbs := Complex.abs L f
  if feq fAbs (.zero false) then z0
  else
    let fz := addCF φ (Complex.add φ (mulFC φ (.nz 3 0) zsq)
      (mulFC φ (fmul φ (.nz 2 0) a2) z0)) a1
    if feq (Complex.abs L fz) (.zero false) then z0
    else
      let z1 := Complex.sub φ z0 (Complex.div φ f fz)
      let z1sq := Complex.mul φ z1 z1
      let f1 := addCF φ (Complex.add φ (Complex.add φ (Complex.mul φ z1 z1sq)
        (mulFC φ a2 z1sq)) (mulFC φ a1 z1)) a0
      if flt fAbs (Complex.abs L f1) then z0 else z1

/-- Free function `c64::cubic` / `c32::cubic` (lib.rs lines 723-763):
assert validity, depress the cubic, take one Cardano root via the complex
cube root, spread by the cube roots of unity, convert back, and Newton-
polish each candidate. -/
def cubic (φ : Fmt) (L : Libm) (a b c d : F) :
    Except Unit (Complex F × Complex F × Complex F) :=
  if a.isNaN || b.isNaN || c.isNaN || d.isNaN then .error ()
  else if feq a (.zero false) then .error ()
  else
    let a2 := fdiv φ b a
    let a1 := fdiv φ c a
    let a0 := fdiv φ d a
    let p := fsub φ a1 (fdiv φ (fmul φ a2 a2) (.nz 3 0))
    let q := fsub φ (fdiv φ (fsub φ (fmul φ (fmul φ (.nz 9 0) a1) a2)
      (fmul φ (fmul φ (fmul φ (.nz 2 0) a2) a2) a2)) (.nz 27 0)) a0
    let wcb := mulFC φ (.nz 1 (-1)) (addFC φ q (msqrt φ (fadd φ (fmul φ q q)
      (fmul φ (fmul φ (fmul φ (fdiv φ (.nz 1 2) (.nz 27 0)) p) p) p))))
    let w := Complex.cbrt φ L wcb
    let po3 := fdiv φ p (.nz 3 0)
    let a2o3 := fdiv φ a2 (.nz 3 0)
    .ok (cubicPolish φ L a2 a1 a0 po3 a2o3 w,
         cubicPolish φ L a2 a1 a0 po3 a2o3 (Complex.mul φ w (CBRT1 φ)),
         cubicPolish φ L a2 a1 a0 po3 a2o3 (Complex.div φ w (CBRT1 φ)))

/-- Equality of float data as numeric results: IEEE `==`, except that two
NaN results are also considered the same datum (IEEE `==` is irreflexive at
NaN, so it cannot by itself express "returns the same value"). -/
def eqvb (x y : F) : Bool := feq x y || (x.isNaN && y.isNaN)

/-- Componentwise `eqvb` on complex values. -/
def Complex.eqv (z w : Complex F) : Bool := eqvb z.r w.r && eqvb z.i w.i

/-- A non-degenerate float datum: the `nz` constructor is only used with a
nonzero mantissa (every actual `f32`/`f64` value satisfies this; every
operation above preserves it). -/
def good : F → Bool
  | .nz m _ => decide (m ≠ 0)
  | _ => true

/-- Result is `≥ 0.0` under IEEE comparison, or NaN. -/
def nonnegOrNan (x : F) : Bool := x.isNaN || fge x (.zero false)

/-- Spec wording of the `sqrt` branch policy, transcribed from §4.2 of the
spec: on the real axis `(√z.r, 0)` for `z.r ≥ 0`, else `(0, √(-z.r))`
signed to match `z.i`; off the axis the half-angle formula with
`x_num = r + z.r`, and the `x_num == 0` fallback
`(0.5*|z.i|/x_rt, x_rt·sign(z.i))` with `x_rt = √(-z.r)`. -/
def sqrtSpec (φ : Fmt) (L : Libm) (z : Complex F) : Complex F :=
  if feq z.i (.zero false) then
    if fge z.r (.zero false) then ⟨sqrtF φ z.r, .zero false⟩
    else ⟨.zero false, copysign (sqrtF φ (fneg z.r)) z.i⟩
  else
    let r := Complex.abs L z
    let xnum := fadd φ r z.r
    if !feq xnum (.zero false) then
      mulCF φ ⟨sqrtF φ xnum, fdiv φ z.i (sqrtF φ xnum)⟩ (frac1sqrt2 φ)
    else
      ⟨fdiv φ (fmul φ (.nz 1 (-1)) (fabs z.i)) (sqrtF φ (fneg z.r)),
       copysign (sqrtF φ (fneg z.r)) z.i⟩

/-- Spec wording of `cbrt`: exactly `(0, 0)` when the cube root of
`abs(z)` is `0`, otherwise one Newton step `w - (w³ - z) / (3w²)` from the
initial estimate `w = abs(z)^(1/3) * cis(angle(z)/3)`. -/
def cbrtSpec (φ : Fmt) (L : Libm) (z : Complex F) : Complex F :=
  if feq (L.cbrt (Complex.abs L z)) (.zero false) then ⟨.zero false, .zero false⟩
  else
    let w := mulFC φ (L.cbrt (Complex.abs L z))
      (Complex.cis L (fdiv φ (Complex.angle L z) (.nz 3 0)))
    Complex.sub φ w
      (Complex.div φ (Complex.sub φ (Complex.mul φ w (Complex.mul φ w w)) z)
        (mulFC φ (.nz 3 0) (Complex.mul φ w w)))

/-- Spec wording of complex division:
`denom = b.r*b.r + b.i*b.i`, result
`((a.r*b.r + a.i*b.i)/denom, (a.i*b.r - a.r*b.i)/denom)`. -/
def divSpec (φ : Fmt) (a b : Complex F) : Complex F :=
  let denom := fadd φ (fmul φ b.r b.r) (fmul φ b.i b.i)
  ⟨fdiv φ (fadd φ (fmul φ a.r b.r) (fmul φ a.i b.i)) denom,
   fdiv φ (fsub φ (fmul φ a.i b.r) (fmul φ a.r b.i)) denom⟩

/-- Spec wording of `scalar / complex`: multiply the scalar by the
conjugate of the complex operand and divide by its squared magnitude. -/
def divFCSpec (φ : Fmt) (x : F) (z : Complex F) : Complex F :=
  let denom := fadd φ (fmul φ z.r z.r) (fmul φ z.i z.i)
  ⟨fdiv φ (fmul φ x (Complex.conj z).r) denom,
   fdiv φ (fmul φ x (Complex.conj z).i) denom⟩

/-- Wording of claim C3 for `quad`: the same validity checks, discriminant
`b*b - 4*a*c` and float-domain square root, but roots
`(-b ± sqrtD) / (2a)` — complex-by-scalar division by the product `2*a`. -/
def quadFormulaSpec (φ : Fmt) (a b c : F) : Except Unit (Complex F × Complex F) :=
  if a.isNaN || b.isNaN || c.isNaN then .error ()
  else if feq a (.zero false) then .error ()
  else
    let sq := msqrt φ (fsub φ (fmul φ b b) (fmul φ (fmul φ (.nz 1 2) a) c))
    .ok (divCF φ (addFC φ (fneg b) sq) (fmul φ (.nz 2 0) a),
         divCF φ (subFC φ (fneg b) sq) (fmul φ (.nz 2 0) a))

/-- Amended wording for `quad`: the roots are `(-b ± sqrtD) * (0.5/a)` —
multiplication by the computed reciprocal `0.5/a`, not division by `2a`. -/
def quadRecipSpec (φ : Fmt) (a b c : F) : Except Unit (Complex F × Complex F) :=
  if a.isNaN || b.isNaN || c.isNaN then .error ()
  else if feq a (.zero false) then .error ()
  else
    let sq := msqrt φ (fsub φ (fmul φ b b) (fmul φ (fmul φ (.nz 1 2) a) c))
    .ok (mulCF φ (addFC φ (fneg b) sq) (fdiv φ (.nz 1 (-1)) a),
         mulCF φ (subFC φ (fneg b) sq) (fdiv φ (.nz 1 (-1)) a))

/-- The payload of a non-panicking call, `none` for a panic. -/
def okOf {α : Type} : Except Unit α → Option α
  | .ok v => some v
  | .error _ => none

/-- Shape invariant used to track sign information through `sqrt`: the
value is NaN, positive infinity, any zero, or finite with nonnegative
mantissa. -/
def nnShape (x : F) : Prop :=
  x = .nan ∨ x = .inf false ∨ (∃ s, x = .zero s) ∨ ∃ m e, x = .nz m e ∧ 0 ≤ m

/-- Stronger shape invariant for denominators: as `nnShape`, but a zero
must be `+0` (dividing a positive value by `-0` would give `-∞`). -/
def posShape (x : F) : Prop :=
  x = .nan ∨ x = .inf false ∨ x = .zero false ∨ ∃ m e, x = .nz m e ∧ 0 ≤ m

/-! Helper lemmas about the float model, shared by the claim theorems. -/

theorem feq_refl_of_not_nan (x : F) (h : x.isNaN = false) : feq x x = true := by
  cases x with
  | nan => simp [F.isNaN] at h
  | inf s => simp [feq]
  | zero s => simp [feq]
  | nz m e => simp [feq, deqD]

theorem eqvb_refl (x : F) : eqvb x x = true := by
  cases hx : x.isNaN with
  | true => cases x <;> simp_all [eqvb, F.isNaN]
  | false => simp [eqvb, feq_refl_of_not_nan x hx]

theorem eqv_refl (z : Complex F) : Complex.eqv z z = true := by
  simp [Complex.eqv, eqvb_refl]

theorem feq_or_nan_refl (x : F) : feq x x = true ∨ (x.isNaN = true ∧ x.isNaN = true) := by
  cases hx : x.isNaN with
  | true => exact Or.inr ⟨rfl, rfl⟩
  | false => exact Or.inl (feq_refl_of_not_nan x hx)

theorem fneg_fneg (x : F) : fneg (fneg x) = x := by
  cases x <;> simp [fneg]

theorem packF_not_nan (φ : Fmt) (s : Bool) (n : ℕ) (g : ℤ) :
    (packF φ s n g).isNaN = false := by
  simp only [packF]
  split_ifs <;> rfl

theorem roundM_not_nan (φ : Fmt) (s : Bool) (a : ℕ) (e : ℤ) :
    (roundM φ s a e).isNaN = false := by
  simp only [roundM]
  split_ifs <;> first | rfl | exact packF_not_nan ..

theorem roundI_not_nan (φ : Fmt) (m e : ℤ) : (roundI φ m e).isNaN = false :=
  roundM_not_nan ..

theorem packF_neg (φ : Fmt) (s : Bool) (n : ℕ) (g : ℤ) :
    packF φ (!s) n g = fneg (packF φ s n g) := by
  cases s <;> simp only [packF, Bool.not_true, Bool.not_false, if_true, if_false] <;>
    split_ifs <;> simp_all [fneg]

theorem roundI_neg (φ : Fmt) (m e : ℤ) (hm : m ≠ 0) :
    roundI φ (-m) e = fneg (roundI φ m e) := by
  simp only [roundI, Int.natAbs_neg]
  have hs : decide (-m < 0) = !decide (m < 0) := by
    rcases lt_trichotomy m 0 with h | h | h
    · simp [h, not_lt.mpr h.le]
    · exact absurd h hm
    · simp [h, not_lt.mpr h.le]
  rw [hs]
  simp only [roundM]
  split_ifs with h0 h1
  · exact absurd (Int.natAbs_eq_zero.mp h0) hm
  · exact packF_neg ..
  · exact packF_neg ..



theorem bne_comm_bool (a b : Bool) : (a != b) = (b != a) := by
  cases a <;> cases b <;> rfl

theorem fadd_comm (φ : Fmt) (x y : F) : fadd φ x y = fadd φ y x := by
  cases x <;> cases y <;> try rfl
  case inf.inf s t => cases s <;> cases t <;> rfl
  case zero.zero s t => simp [fadd, Bool.and_comm]
  case nz.nz m1 e1 m2 e2 =>
    have hM : m1 * 2 ^ (e1 - min e1 e2).toNat + m2 * 2 ^ (e2 - min e1 e2).toNat =
        m2 * 2 ^ (e2 - min e2 e1).toNat + m1 * 2 ^ (e1 - min e2 e1).toNat := by
      rw [min_comm]
      ring
    simp only [fadd]
    rw [hM, min_comm e1 e2]

theorem fmul_comm (φ : Fmt) (x y : F) : fmul φ x y = fmul φ y x := by
  cases x <;> cases y <;>
    simp [fmul, bne_comm_bool, Int.mul_comm, Int.add_comm, or_comm]

theorem fadd_zero_feq (φ : Fmt) (x : F) (s : Bool) (h : x.isNaN = false) :
    feq (fadd φ x (.zero s)) x = true := by
  cases x with
  | nan => simp [F.isNaN] at h
  | inf t => simp [fadd, feq]
  | zero t => cases s <;> cases t <;> simp [fadd, feq]
  | nz m e => simpa [fadd] using feq_refl_of_not_nan (F.nz m e) rfl

theorem zero_fadd_feq (φ : Fmt) (x : F) (s : Bool) (h : x.isNaN = false) :
    feq (fadd φ (.zero s) x) x = true := by
  rw [fadd_comm]
  exact fadd_zero_feq φ x s h

theorem fadd_finite_not_nan (φ : Fmt) (x y : F) (hx : x.isFinite = true)
    (hy : y.isFinite = true) : (fadd φ x y).isNaN = false := by
  cases x <;> cases y <;> try rfl
  all_goals first
    | (simp [F.isFinite] at hx hy; done)
    | (simp only [fadd]; split_ifs <;> first | rfl | exact roundI_not_nan ..)

theorem fmul_finite_not_nan (φ : Fmt) (x y : F) (hx : x.isFinite = true)
    (hy : y.isFinite = true) : (fmul φ x y).isNaN = false := by
  cases x <;> cases y <;> try rfl
  all_goals first
    | (simp [F.isFinite] at hx hy; done)
    | (simp only [fmul]; split_ifs <;> first | rfl | exact roundI_not_nan ..)

theorem fmul_zero_left_of_finite (φ : Fmt) (s : Bool) (y : F)
    (hy : y.isFinite = true) : ∃ t, fmul φ (.zero s) y = .zero t := by
  cases y with
  | nan => simp [F.isFinite] at hy
  | inf t => simp [F.isFinite] at hy
  | zero t => exact ⟨_, rfl⟩
  | nz m2 e2 => exact ⟨_, rfl⟩

theorem feq_zero_zero (s t : Bool) : feq (.zero s) (.zero t) = true := rfl

theorem fmul_neg_left (φ : Fmt) (x y : F) (hx : good x = true) :
    fmul φ (fneg x) y = fneg (fmul φ x y) := by
  cases x with
  | nan => cases y <;> rfl
  | inf s => cases y <;> simp [fmul, fneg] <;> cases s <;> simp
  | zero s => cases y <;> simp [fmul, fneg] <;> cases s <;> simp
  | nz m e =>
    have hm : m ≠ 0 := by simpa [good] using hx
    have hsgn : decide (-m < 0) = !decide (m < 0) := by
      rcases lt_trichotomy m 0 with h | h | h
      · simp [h, not_lt.mpr h.le]
      · exact absurd h hm
      · simp [h, not_lt.mpr h.le]
    have hsgn2 : decide (0 < m) = !decide (m < 0) := by
      rcases lt_trichotomy m 0 with h | h | h
      · simp [h, not_lt.mpr h.le]
      · exact absurd h hm
      · simp [h, not_lt.mpr h.le]
    cases y with
    | nan => rfl
    | inf t => simp [fmul, fneg, hsgn, hsgn2]
    | zero t => simp [fmul, fneg, hsgn, hsgn2]
    | nz m2 e2 =>
      by_cases h2 : m * m2 = 0
      · have h3 : m2 = 0 := by
          rcases mul_eq_zero.mp h2 with h | h
          · exact absurd h hm
          · exact h
        subst h3
        simp [fmul, fneg, hm, hsgn, hsgn2]
      · have h4 : ¬(m = 0 ∨ m2 = 0) := by
          rw [← mul_eq_zero]
          exact h2
        simp [fmul, fneg, neg_mul, h4, h2, roundI_neg φ (m * m2) (e + e2) h2]

theorem fmul_neg_right (φ : Fmt) (x y : F) (hy : good y = true) :
    fmul φ x (fneg y) = fneg (fmul φ x y) := by
  rw [fmul_comm, fmul_neg_left φ y x hy, fmul_comm]

theorem good_fneg (x : F) (h : good x = true) : good (fneg x) = true := by
  cases x <;> simp_all [good, fneg]

theorem good_packF (φ : Fmt) (s : Bool) (n : ℕ) (g : ℤ) :
    good (packF φ s n g) = true := by
  simp only [packF]
  split_ifs <;> first | rfl | (simp [good] ; omega)

theorem good_roundI (φ : Fmt) (m e : ℤ) : good (roundI φ m e) = true := by
  simp only [roundI, roundM]
  split_ifs <;> first | rfl | exact good_packF ..

theorem good_sqrtF (φ : Fmt) (x : F) : good (sqrtF φ x) = true := by
  cases x with
  | nan => rfl
  | inf s => cases s <;> rfl
  | zero s => rfl
  | nz m e =>
    simp only [sqrtF]
    split_ifs with h1 h2
    · rfl
    · rfl
    · simp only [sqrtPos]
      exact good_packF ..

theorem feq_nan_left (y : F) : feq .nan y = false := by cases y <;> rfl

theorem feq_nan_right (y : F) : feq y .nan = false := by cases y <;> rfl

theorem eq_nan_of_isNaN (x : F) (h : x.isNaN = true) : x = .nan := by
  cases x <;> simp_all [F.isNaN]

theorem isNaN_false_of_isFinite (x : F) (h : x.isFinite = true) : x.isNaN = false := by
  cases x <;> simp_all [F.isFinite, F.isNaN]

theorem fneg_not_nan (x : F) (h : x.isNaN = false) : (fneg x).isNaN = false := by
  cases x <;> simp_all [F.isNaN, fneg]

theorem exists_zero_of_isZero (x : F) (h : x.isZero = true) : ∃ s, x = .zero s := by
  cases x <;> simp_all [F.isZero]

theorem fdiv_zero_denominator (φ : Fmt) (x : F) (s : Bool) :
    ((fdiv φ x (.zero s)).isNaN || (fdiv φ x (.zero s)).isInf) = true := by
  cases x <;> rfl

/-- Claim C10: equality on `Complex<T>` is componentwise scalar equality;
a complex value with a NaN component compares unequal to every value,
itself included; `(0.0, -0.0)` and `(0.0, 0.0)` compare equal. -/
theorem c10_eq_componentwise :
    (∀ z w : Complex F, Complex.eq z w = (feq z.r w.r && feq z.i w.i))
    ∧ (∀ z w : Complex F, (z.r.isNaN || z.i.isNaN) = true →
        Complex.eq z w = false ∧ Complex.eq w z = false)
    ∧ Complex.eq ⟨.zero false, .zero true⟩ ⟨.zero false, .zero false⟩ = true := by
  refine ⟨fun z w => rfl, fun z w h => ?_, rfl⟩
  rcases Bool.or_eq_true_iff.mp h with h1 | h1
  · have hz : z.r = F.nan := eq_nan_of_isNaN _ h1
    constructor <;> simp [Complex.eq, hz, feq_nan_left, feq_nan_right]
  · have hz : z.i = F.nan := eq_nan_of_isNaN _ h1
    constructor <;> simp [Complex.eq, hz, feq_nan_left, feq_nan_right]

theorem c10_witness :
    Complex.eq ⟨F.nan, .zero false⟩ ⟨F.nan, .zero false⟩ = false :=
  (c10_eq_componentwise.2.1 ⟨F.nan, .zero false⟩ ⟨F.nan, .zero false⟩ (by decide)).1

/-- Claim C1: `quad` and `cubic` panic exactly when the leading
coefficient compares equal to `0.0` or some coefficient is NaN; every
other input returns normally with 2 (respectively 3) complex roots. -/
theorem c1_solver_panic_iff (φ : Fmt) (L : Libm) (a b c d : F) :
    (okOf (quad φ a b c)).isSome
      = !(feq a (.zero false) || (a.isNaN || b.isNaN || c.isNaN))
    ∧ (okOf (cubic φ L a b c d)).isSome
      = !(feq a (.zero false) || (a.isNaN || b.isNaN || c.isNaN || d.isNaN)) := by
  constructor
  · simp only [quad]
    by_cases h1 : (a.isNaN || b.isNaN || c.isNaN) = true
    · simp [h1, okOf]
    · by_cases h2 : feq a (.zero false) = true
      · simp [h1, h2, okOf]
      · simp [h1, h2, okOf]
  · simp only [cubic]
    by_cases h1 : (a.isNaN || b.isNaN || c.isNaN || d.isNaN) = true
    · simp [h1, okOf]
    · by_cases h2 : feq a (.zero false) = true
      · simp [h1, h2, okOf]
      · simp [h1, h2, okOf]

/-- Claim C2: `Complex::sqrt` follows the documented branch policy (the
spec-side transcription `sqrtSpec`), up to the equality of numeric data
`Complex.eqv` (the real-axis branch returns the input zero `y`, whose sign
may be negative, where the spec writes the equal value `0`). -/
theorem c2_sqrt_branch_policy (φ : Fmt) (L : Libm) (z : Complex F) :
    Complex.eqv (Complex.sqrt φ L z) (sqrtSpec φ L z) = true := by
  simp only [Complex.sqrt, sqrtSpec]
  by_cases h1 : feq z.i (.zero false) = true
  · simp only [h1, if_true]
    by_cases h2 : fge z.r (.zero false) = true
    · simp only [h2, if_true]
      simp only [Complex.eqv, eqvb_refl, Bool.true_and]
      simp [eqvb, h1]
    · simp only [h2, Bool.false_eq_true, if_false]
      exact eqv_refl _
  · simp only [h1, Bool.false_eq_true, if_false]
    exact eqv_refl _

/-- Claim C3 counterexample: at `a = 3, b = -28, c = 0` (all exact `f64`
values, discriminant `784` with exact square root `28`) the root returned
by `quad` is `56 * (0.5/3) = 9.333333333333332`, one ulp below the claimed
`56 / 6 = 9.333333333333334`. -/
theorem c3_quad_division_counterexample :
    okOf (quad f64fmt (.nz 3 0) (.nz (-28) 0) (.zero false)) ≠
      okOf (quadFormulaSpec f64fmt (.nz 3 0) (.nz (-28) 0) (.zero false)) := by
  decide

/-- Claim C3 amended: `quad` returns exactly `(-b ± sqrtD) * (0.5/a)` —
it multiplies by the computed reciprocal `0.5/a` instead of dividing by
`2a`, which can differ from the claimed quotient in the last ulp. -/
theorem c3_quad_reciprocal_formula (φ : Fmt) (a b c : F) :
    quad φ a b c = quadRecipSpec φ a b c := rfl

/-- Claim C4: `Complex::cbrt` returns exactly `(0, 0)` when the scalar
cube root of `abs(z)` compares equal to `0`, and otherwise one Newton step
`w - (w³ - z) / (3w²)` from `w = abs(z)^(1/3) * cis(angle(z)/3)`. -/
theorem c4_cbrt_newton (φ : Fmt) (L : Libm) (z : Complex F) :
    Complex.cbrt φ L z = cbrtSpec φ L z := rfl

/-- Claim C5: complex division uses exactly the documented formula, never
panics (it is a total function), and when the computed denominator
`b.r*b.r + b.i*b.i` is a zero value each component of the result is NaN or
an infinity, per scalar division-by-zero semantics. -/
theorem c5_div_formula_and_zero_denominator :
    (∀ (φ : Fmt) (a b : Complex F), Complex.div φ a b = divSpec φ a b)
    ∧ (∀ (φ : Fmt) (a b : Complex F),
        (fadd φ (fmul φ b.r b.r) (fmul φ b.i b.i)).isZero = true →
        ((Complex.div φ a b).r.isNaN || (Complex.div φ a b).r.isInf) = true
        ∧ ((Complex.div φ a b).i.isNaN || (Complex.div φ a b).i.isInf) = true) := by
  refine ⟨fun φ a b => rfl, fun φ a b h => ?_⟩
  obtain ⟨s, hs⟩ := exists_zero_of_isZero _ h
  constructor
  · simp only [Complex.div, hs]
    exact fdiv_zero_denominator ..
  · simp only [Complex.div, hs]
    exact fdiv_zero_denominator ..

theorem c5_witness :
    ((Complex.div f64fmt ⟨.nz 1 0, .nz 2 0⟩ ⟨.zero false, .zero false⟩).r.isNaN
      || (Complex.div f64fmt ⟨.nz 1 0, .nz 2 0⟩ ⟨.zero false, .zero false⟩).r.isInf) = true
    ∧ ((Complex.div f64fmt ⟨.nz 1 0, .nz 2 0⟩ ⟨.zero false, .zero false⟩).i.isNaN
      || (Complex.div f64fmt ⟨.nz 1 0, .nz 2 0⟩ ⟨.zero false, .zero false⟩).i.isInf) = true :=
  c5_div_formula_and_zero_denominator.2 f64fmt ⟨.nz 1 0, .nz 2 0⟩
    ⟨.zero false, .zero false⟩ (by decide)

theorem feq_roundI_opp (φ : Fmt) (A B E : ℤ) (hAB : B = -A) (hA : A ≠ 0) :
    feq (roundI φ A E) (fneg (roundI φ B E)) = true := by
  subst hAB
  rw [roundI_neg _ _ _ hA, fneg_fneg]
  exact feq_refl_of_not_nan _ (roundI_not_nan ..)

theorem fsub_antisym_feq (φ : Fmt) (x y : F) (hx : x.isFinite = true)
    (hy : y.isFinite = true) : feq (fsub φ x y) (fneg (fsub φ y x)) = true := by
  cases x <;> try (simp [F.isFinite] at hx; done)
  case zero s =>
    cases y <;> try (simp [F.isFinite] at hy; done)
    case zero t => cases s <;> cases t <;> rfl
    case nz m e => exact feq_refl_of_not_nan (F.nz (-m) e) rfl
  case nz m e =>
    cases y <;> try (simp [F.isFinite] at hy; done)
    case zero t =>
      show feq (F.nz m e) (fneg (F.nz (-m) e)) = true
      simp only [fneg, neg_neg]
      exact feq_refl_of_not_nan _ rfl
    case nz m2 e2 =>
      show feq (fadd φ (F.nz m e) (F.nz (-m2) e2))
        (fneg (fadd φ (F.nz m2 e2) (F.nz (-m) e))) = true
      simp only [fadd]
      rw [min_comm e2 e]
      split_ifs with h1 h2
      · rfl
      · exact absurd (by linarith) h2
      · exact absurd (by linarith) h1
      · exact feq_roundI_opp φ _ _ _ (by ring) h1

/-- Claim C7: for finite scalar and complex operands, the mixed operators
commute under the library equality: `x + z == z + x`, `x * z == z * x`,
and `x - z == -(z - x)`. -/
theorem c7_mixed_commutativity (φ : Fmt) (x : F) (z : Complex F)
    (hx : x.isFinite = true) (hr : z.r.isFinite = true) (hi : z.i.isFinite = true) :
    Complex.eq (addFC φ x z) (addCF φ z x) = true
    ∧ Complex.eq (mulFC φ x z) (mulCF φ z x) = true
    ∧ Complex.eq (subFC φ x z) (Complex.neg (subCF φ z x)) = true := by
  have hin : z.i.isNaN = false := isNaN_false_of_isFinite _ hi
  refine ⟨?_, ?_, ?_⟩
  · have h1 : feq (fadd φ x z.r) (fadd φ z.r x) = true := by
      rw [fadd_comm]
      exact feq_refl_of_not_nan _ (fadd_finite_not_nan φ z.r x hr hx)
    simp [Complex.eq, addFC, addCF, h1, feq_refl_of_not_nan _ hin]
  · have h1 : feq (fmul φ x z.r) (fmul φ z.r x) = true := by
      rw [fmul_comm]
      exact feq_refl_of_not_nan _ (fmul_finite_not_nan φ z.r x hr hx)
    have h2 : feq (fmul φ x z.i) (fmul φ z.i x) = true := by
      rw [fmul_comm]
      exact feq_refl_of_not_nan _ (fmul_finite_not_nan φ z.i x hi hx)
    simp [Complex.eq, mulFC, mulCF, h1, h2]
  · have h1 : feq (fsub φ x z.r) (fneg (fsub φ z.r x)) = true :=
      fsub_antisym_feq φ x z.r hx hr
    simp [Complex.eq, subFC, subCF, Complex.neg, h1,
      feq_refl_of_not_nan _ (fneg_not_nan _ hin)]

theorem c7_witness :
    Complex.eq (addFC f64fmt (.nz 2 0) ⟨.nz 1 0, .nz 3 0⟩)
      (addCF f64fmt ⟨.nz 1 0, .nz 3 0⟩ (.nz 2 0)) = true
    ∧ Complex.eq (mulFC f64fmt (.nz 2 0) ⟨.nz 1 0, .nz 3 0⟩)
      (mulCF f64fmt ⟨.nz 1 0, .nz 3 0⟩ (.nz 2 0)) = true
    ∧ Complex.eq (subFC f64fmt (.nz 2 0) ⟨.nz 1 0, .nz 3 0⟩)
      (Complex.neg (subCF f64fmt ⟨.nz 1 0, .nz 3 0⟩ (.nz 2 0))) = true :=
  c7_mixed_commutativity f64fmt (.nz 2 0) ⟨.nz 1 0, .nz 3 0⟩
    (by decide) (by decide) (by decide)

theorem fneg_isFinite (y : F) (h : y.isFinite = true) : (fneg y).isFinite = true := by
  cases y <;> simp_all [F.isFinite, fneg]

theorem deqD_comm (m1 e1 m2 e2 : ℤ) : deqD m1 e1 m2 e2 = deqD m2 e2 m1 e1 := by
  simp only [deqD]
  rcases le_total e1 e2 with h | h
  · by_cases h2 : e2 ≤ e1
    · have h3 : e1 = e2 := le_antisymm h h2
      subst h3
      simp [eq_comm]
    · simp [h, h2, eq_comm]
  · by_cases h2 : e1 ≤ e2
    · have h3 : e1 = e2 := le_antisymm h2 h
      subst h3
      simp [eq_comm]
    · simp [h, h2, eq_comm]

theorem feq_comm (x y : F) : feq x y = feq y x := by
  cases x <;> cases y <;> try rfl
  case inf.inf s t => simp [feq, eq_comm]
  case nz.nz m1 e1 m2 e2 => exact deqD_comm ..

theorem fmul_zero_right_of_finite (φ : Fmt) (s : Bool) (y : F)
    (hy : y.isFinite = true) : ∃ t, fmul φ y (.zero s) = .zero t := by
  rw [fmul_comm]
  exact fmul_zero_left_of_finite φ s y hy

/-- Claim C6 counterexample: for `z = (134217729, 0)` and `x = 134217731`
(exact `f64` integers), `z / x` divides componentwise and returns
`0.9999999850988391`, while converting `x` to `(x, 0)` and applying
complex division returns `0.9999999850988393` — the two are not equal. -/
theorem c6_mixed_div_counterexample :
    Complex.eq (divCF f64fmt ⟨.nz 134217729 0, .zero false⟩ (.nz 134217731 0))
      (Complex.div f64fmt ⟨.nz 134217729 0, .zero false⟩
        (Complex.fromF (.nz 134217731 0))) = false := by
  decide

/-- Claim C6 amended: for finite operands the promoted-operand equivalence
holds for `x + z`, `z + x`, `x - z`, `z - x`, `x * z`, `z * x` under the
library equality; `x / z` is exactly the specialized conjugate formula;
but `z / x` divides componentwise, which can differ from the promoted
complex division in the last ulp. -/
theorem c6_mixed_ops_promotion :
    (∀ (φ : Fmt) (x : F) (z : Complex F), x.isFinite = true →
      z.r.isFinite = true → z.i.isFinite = true →
      Complex.eq (addFC φ x z) (Complex.add φ (Complex.fromF x) z) = true
      ∧ Complex.eq (addCF φ z x) (Complex.add φ z (Complex.fromF x)) = true
      ∧ Complex.eq (subFC φ x z) (Complex.sub φ (Complex.fromF x) z) = true
      ∧ Complex.eq (subCF φ z x) (Complex.sub φ z (Complex.fromF x)) = true
      ∧ Complex.eq (mulFC φ x z) (Complex.mul φ (Complex.fromF x) z) = true
      ∧ Complex.eq (mulCF φ z x) (Complex.mul φ z (Complex.fromF x)) = true)
    ∧ (∀ (φ : Fmt) (x : F) (z : Complex F), good x = true → good z.i = true →
      divFC φ x z = divFCSpec φ x z)
    ∧ (∀ (φ : Fmt) (x : F) (z : Complex F),
      divCF φ z x = ⟨fdiv φ z.r x, fdiv φ z.i x⟩) := by
  refine ⟨fun φ x z hx hr hi => ?_, fun φ x z hgx hgi => ?_, fun φ x z => rfl⟩
  · have hxn : x.isNaN = false := isNaN_false_of_isFinite _ hx
    have hrn : z.r.isNaN = false := isNaN_false_of_isFinite _ hr
    have hin : z.i.isNaN = false := isNaN_false_of_isFinite _ hi
    refine ⟨?_, ?_, ?_, ?_, ?_, ?_⟩
    · simp only [addFC, Complex.add, Complex.fromF, Complex.eq]
      rw [feq_refl_of_not_nan _ (fadd_finite_not_nan φ x z.r hx hr),
        feq_comm, zero_fadd_feq φ z.i false hin]
      rfl
    · simp only [addCF, Complex.add, Complex.fromF, Complex.eq]
      rw [feq_refl_of_not_nan _ (fadd_finite_not_nan φ z.r x hr hx),
        feq_comm, fadd_zero_feq φ z.i false hin]
      rfl
    · simp only [subFC, Complex.sub, Complex.fromF, Complex.eq, fsub]
      rw [feq_refl_of_not_nan _
        (fadd_finite_not_nan φ x (fneg z.r) hx (fneg_isFinite _ hr)),
        feq_comm, zero_fadd_feq φ (fneg z.i) false (fneg_not_nan _ hin)]
      rfl
    · simp only [subCF, Complex.sub, Complex.fromF, Complex.eq, fsub]
      rw [feq_refl_of_not_nan _
        (fadd_finite_not_nan φ z.r (fneg x) hr (fneg_isFinite _ hx)),
        show fneg (F.zero false) = F.zero true from rfl,
        feq_comm, fadd_zero_feq φ z.i true hin]
      rfl
    · simp only [mulFC, Complex.mul, Complex.fromF, Complex.eq, fsub]
      obtain ⟨t1, ht1⟩ := fmul_zero_left_of_finite φ false z.i hi
      obtain ⟨t2, ht2⟩ := fmul_zero_left_of_finite φ false z.r hr
      rw [ht1, ht2]
      have hW : (fmul φ x z.r).isNaN = false := fmul_finite_not_nan φ x z.r hx hr
      have hV : (fmul φ x z.i).isNaN = false := fmul_finite_not_nan φ x z.i hx hi
      rw [show fneg (F.zero t1) = F.zero (!t1) from rfl, feq_comm,
        fadd_zero_feq φ (fmul φ x z.r) (!t1) hW, feq_comm,
        fadd_zero_feq φ (fmul φ x z.i) t2 hV]
      rfl
    · simp only [mulCF, Complex.mul, Complex.fromF, Complex.eq, fsub]
      obtain ⟨t1, ht1⟩ := fmul_zero_right_of_finite φ false z.i hi
      obtain ⟨t2, ht2⟩ := fmul_zero_right_of_finite φ false z.r hr
      rw [ht1, ht2]
      have hW : (fmul φ z.r x).isNaN = false := fmul_finite_not_nan φ z.r x hr hx
      have hV : (fmul φ z.i x).isNaN = false := fmul_finite_not_nan φ z.i x hi hx
      rw [show fneg (F.zero t1) = F.zero (!t1) from rfl, feq_comm,
        fadd_zero_feq φ (fmul φ z.r x) (!t1) hW, feq_comm,
        zero_fadd_feq φ (fmul φ z.i x) t2 hV]
      rfl
  · simp only [divFC, divFCSpec, Complex.conj]
    rw [fmul_neg_left φ x z.i hgx, ← fmul_neg_right φ x z.i hgi]

theorem c6_witness :
    (Complex.eq (addFC f64fmt (.nz 2 0) ⟨.nz 1 0, .nz 3 0⟩)
      (Complex.add f64fmt (Complex.fromF (.nz 2 0)) ⟨.nz 1 0, .nz 3 0⟩) = true
      ∧ Complex.eq (addCF f64fmt ⟨.nz 1 0, .nz 3 0⟩ (.nz 2 0))
        (Complex.add f64fmt ⟨.nz 1 0, .nz 3 0⟩ (Complex.fromF (.nz 2 0))) = true
      ∧ Complex.eq (subFC f64fmt (.nz 2 0) ⟨.nz 1 0, .nz 3 0⟩)
        (Complex.sub f64fmt (Complex.fromF (.nz 2 0)) ⟨.nz 1 0, .nz 3 0⟩) = true
      ∧ Complex.eq (subCF f64fmt ⟨.nz 1 0, .nz 3 0⟩ (.nz 2 0))
        (Complex.sub f64fmt ⟨.nz 1 0, .nz 3 0⟩ (Complex.fromF (.nz 2 0))) = true
      ∧ Complex.eq (mulFC f64fmt (.nz 2 0) ⟨.nz 1 0, .nz 3 0⟩)
        (Complex.mul f64fmt (Complex.fromF (.nz 2 0)) ⟨.nz 1 0, .nz 3 0⟩) = true
      ∧ Complex.eq (mulCF f64fmt ⟨.nz 1 0, .nz 3 0⟩ (.nz 2 0))
        (Complex.mul f64fmt ⟨.nz 1 0, .nz 3 0⟩ (Complex.fromF (.nz 2 0))) = true)
    ∧ divFC f64fmt (.nz 5 0) ⟨.nz 3 0, .nz (-4) 0⟩
      = divFCSpec f64fmt (.nz 5 0) ⟨.nz 3 0, .nz (-4) 0⟩ :=
  ⟨c6_mixed_ops_promotion.1 f64fmt (.nz 2 0) ⟨.nz 1 0, .nz 3 0⟩
    (by decide) (by decide) (by decide),
   c6_mixed_ops_promotion.2.1 f64fmt (.nz 5 0) ⟨.nz 3 0, .nz (-4) 0⟩
    (by decide) (by decide)⟩

theorem fge_zero_false_of_flt_zero (x : F) (h : flt x (.zero false) = true) :
    fge x (.zero false) = false := by
  cases x with
  | nan => simp [flt] at h
  | inf s =>
    cases s with
    | false => simp [flt] at h
    | true => rfl
  | zero t => simp [flt] at h
  | nz m e =>
    have hm : m < 0 := by simpa [flt, dltD] using h
    simp [fge, fle, flt, feq, dltD, deqD]
    omega

/-- Claim C9 counterexample: `quad(2^-1074, +0.0, 2^1000)` is a valid
input with negative computed discriminant `-2^-72`, but `0.5/a` overflows
to infinity and both returned roots have NaN real parts — which are not
equal under the scalar equality, so the roots are not complex conjugates
as claimed. -/
theorem c9_quad_conjugate_counterexample :
    (F.nz 1 (-1074)).isNaN = false
    ∧ (F.zero false).isNaN = false
    ∧ (F.nz 1 1000).isNaN = false
    ∧ feq (.nz 1 (-1074)) (.zero false) = false
    ∧ flt (fsub f64fmt (fmul f64fmt (.zero false) (.zero false))
        (fmul f64fmt (fmul f64fmt (.nz 1 2) (.nz 1 (-1074))) (.nz 1 1000)))
        (.zero false) = true
    ∧ (okOf (quad f64fmt (.nz 1 (-1074)) (.zero false) (.nz 1 1000))).map
        (fun p => feq p.1.r p.2.r) = some false := by
  decide

/-- Claim C9 amended: for every valid input with negative computed
discriminant, the two roots have real parts that are equal under scalar
equality or are both NaN (NaN occurs only when the reciprocal `0.5/a`
is infinite and `b` is a zero), and imaginary parts that are exact
negations of each other. -/
theorem c9_quad_conjugate_roots (φ : Fmt) (a b c : F) (z1 z2 : Complex F)
    (ha : a.isNaN = false) (hb : b.isNaN = false) (hc : c.isNaN = false)
    (ha0 : feq a (.zero false) = false)
    (hD : flt (fsub φ (fmul φ b b) (fmul φ (fmul φ (.nz 1 2) a) c))
      (.zero false) = true)
    (hok : quad φ a b c = .ok (z1, z2)) :
    (feq z1.r z2.r = true ∨ (z1.r.isNaN = true ∧ z2.r.isNaN = true))
    ∧ z1.i = fneg z2.i := by
  have hfge := fge_zero_false_of_flt_zero _ hD
  simp only [quad, ha, hb, hc, ha0, Bool.or_self, Bool.or_false,
    Bool.false_eq_true, if_false, msqrt, hfge, Except.ok.injEq,
    Prod.mk.injEq] at hok
  obtain ⟨hz1, hz2⟩ := hok
  subst hz1
  subst hz2
  constructor
  · cases b with
    | nan => simp [F.isNaN] at hb
    | inf s =>
      exfalso
      rw [show fmul φ (F.inf s) (F.inf s) = F.inf false from by simp [fmul]] at hD
      revert hD
      simp only [fsub]
      cases hW : fneg (fmul φ (fmul φ (.nz 1 2) a) c) with
      | nan => simp [fadd, flt]
      | inf t => cases t <;> simp [fadd, flt]
      | zero t => simp [fadd, flt]
      | nz m2 e2 => simp [fadd, flt]
    | zero s =>
      cases hdom : fdiv φ (.nz 1 (-1)) a with
      | nan => exact Or.inr ⟨rfl, rfl⟩
      | inf t => exact Or.inr ⟨rfl, rfl⟩
      | zero t => exact Or.inl rfl
      | nz mw ew => exact Or.inl rfl
    | nz mv ev => exact feq_or_nan_refl _
  · simp only [mulCF, addFC, subFC]
    rw [fmul_neg_left φ _ _ (good_sqrtF ..), fneg_fneg]

theorem c9_witness :
    (feq (Complex.mk (F.zero false) (.nz 4503599627370496 (-52))).r
      (Complex.mk (F.zero true) (.nz (-4503599627370496) (-52))).r = true
      ∨ ((Complex.mk (F.zero false) (.nz 4503599627370496 (-52))).r.isNaN = true
        ∧ (Complex.mk (F.zero true) (.nz (-4503599627370496) (-52))).r.isNaN = true))
    ∧ (Complex.mk (F.zero false) (.nz 4503599627370496 (-52))).i
      = fneg (Complex.mk (F.zero true) (.nz (-4503599627370496) (-52))).i :=
  c9_quad_conjugate_roots f64fmt (.nz 1 0) (.zero false) (.nz 1 0)
    ⟨.zero false, .nz 4503599627370496 (-52)⟩
    ⟨.zero true, .nz (-4503599627370496) (-52)⟩
    (by decide) (by decide) (by decide) (by decide) (by decide) (by rfl)

theorem packF_false_nnShape (φ : Fmt) (n : ℕ) (g : ℤ) :
    nnShape (packF φ false n g) := by
  simp only [packF, Bool.false_eq_true, if_false]
  split_ifs with h1 h2 h3
  · exact Or.inr (Or.inl rfl)
  · exact Or.inr (Or.inl rfl)
  · exact Or.inr (Or.inr (Or.inl ⟨false, rfl⟩))
  · exact Or.inr (Or.inr (Or.inr ⟨n, g, rfl, Int.natCast_nonneg n⟩))

theorem packF_false_posShape (φ : Fmt) (n : ℕ) (g : ℤ) :
    posShape (packF φ false n g) := by
  simp only [packF, Bool.false_eq_true, if_false]
  split_ifs with h1 h2 h3
  · exact Or.inr (Or.inl rfl)
  · exact Or.inr (Or.inl rfl)
  · exact Or.inr (Or.inr (Or.inl rfl))
  · exact Or.inr (Or.inr (Or.inr ⟨n, g, rfl, Int.natCast_nonneg n⟩))

theorem roundI_nonneg_nnShape (φ : Fmt) (m e : ℤ) (h : 0 ≤ m) :
    nnShape (roundI φ m e) := by
  simp only [roundI, show decide (m < 0) = false from by simp [not_lt.mpr h], roundM]
  split_ifs with h0 h1
  · exact Or.inr (Or.inr (Or.inl ⟨false, rfl⟩))
  · exact packF_false_nnShape ..
  · exact packF_false_nnShape ..

theorem sqrtF_nnShape (φ : Fmt) (x : F) : nnShape (sqrtF φ x) := by
  cases x with
  | nan => exact Or.inl rfl
  | inf s =>
    cases s with
    | false => exact Or.inr (Or.inl rfl)
    | true => exact Or.inl rfl
  | zero s => exact Or.inr (Or.inr (Or.inl ⟨s, rfl⟩))
  | nz m e =>
    simp only [sqrtF]
    split_ifs with h1 h2
    · exact Or.inl rfl
    · exact Or.inr (Or.inr (Or.inl ⟨false, rfl⟩))
    · simp only [sqrtPos]
      exact packF_false_nnShape ..

theorem sqrtF_posShape (φ : Fmt) (x : F) (hx : x ≠ .zero true) :
    posShape (sqrtF φ x) := by
  cases x with
  | nan => exact Or.inl rfl
  | inf s =>
    cases s with
    | false => exact Or.inr (Or.inl rfl)
    | true => exact Or.inl rfl
  | zero s =>
    cases s with
    | false => exact Or.inr (Or.inr (Or.inl rfl))
    | true => exact absurd rfl hx
  | nz m e =>
    simp only [sqrtF]
    split_ifs with h1 h2
    · exact Or.inl rfl
    · exact Or.inr (Or.inr (Or.inl rfl))
    · simp only [sqrtPos]
      exact packF_false_posShape ..

theorem nnShape_fabs (y : F) : nnShape (fabs y) := by
  cases y with
  | nan => exact Or.inl rfl
  | inf s => exact Or.inr (Or.inl rfl)
  | zero s => exact Or.inr (Or.inr (Or.inl ⟨false, rfl⟩))
  | nz m e => exact Or.inr (Or.inr (Or.inr ⟨m.natAbs, e, rfl, Int.natCast_nonneg _⟩))

theorem fmul_nnShape (φ : Fmt) (x y : F) (hx : nnShape x) (hy : nnShape y) :
    nnShape (fmul φ x y) := by
  rcases hx with rfl | rfl | ⟨s, rfl⟩ | ⟨m1, e1, rfl, hm1⟩ <;>
    rcases hy with rfl | rfl | ⟨t, rfl⟩ | ⟨m2, e2, rfl, hm2⟩
  · exact Or.inl rfl
  · exact Or.inl rfl
  · exact Or.inl rfl
  · exact Or.inl rfl
  · exact Or.inl rfl
  · exact Or.inr (Or.inl rfl)
  · exact Or.inl rfl
  · simp only [fmul, show decide (m2 < 0) = false from by simp [not_lt.mpr hm2]]
    exact Or.inr (Or.inl rfl)
  · exact Or.inl rfl
  · exact Or.inl rfl
  · exact Or.inr (Or.inr (Or.inl ⟨_, rfl⟩))
  · exact Or.inr (Or.inr (Or.inl ⟨_, rfl⟩))
  · exact Or.inl rfl
  · simp only [fmul, show decide (m1 < 0) = false from by simp [not_lt.mpr hm1]]
    exact Or.inr (Or.inl rfl)
  · exact Or.inr (Or.inr (Or.inl ⟨_, rfl⟩))
  · simp only [fmul]
    split_ifs with h0
    · exact Or.inr (Or.inr (Or.inl ⟨_, rfl⟩))
    · exact roundI_nonneg_nnShape φ _ _ (mul_nonneg hm1 hm2)

theorem fdiv_nn_pos (φ : Fmt) (x y : F) (hx : nnShape x) (hy : posShape y) :
    nnShape (fdiv φ x y) := by
  rcases hx with rfl | rfl | ⟨s, rfl⟩ | ⟨m1, e1, rfl, hm1⟩ <;>
    rcases hy with rfl | rfl | rfl | ⟨m2, e2, rfl, hm2⟩
  · exact Or.inl rfl
  · exact Or.inl rfl
  · exact Or.inl rfl
  · exact Or.inl rfl
  · exact Or.inl rfl
  · exact Or.inl rfl
  · exact Or.inr (Or.inl rfl)
  · simp only [fdiv, show decide (m2 < 0) = false from by simp [not_lt.mpr hm2]]
    exact Or.inr (Or.inl rfl)
  · exact Or.inl rfl
  · exact Or.inr (Or.inr (Or.inl ⟨_, rfl⟩))
  · exact Or.inl rfl
  · simp only [fdiv, show decide (m2 < 0) = false from by simp [not_lt.mpr hm2]]
    exact Or.inr (Or.inr (Or.inl ⟨_, rfl⟩))
  · exact Or.inl rfl
  · simp only [fdiv, show decide (m1 < 0) = false from by simp [not_lt.mpr hm1]]
    exact Or.inr (Or.inr (Or.inl ⟨_, rfl⟩))
  · simp only [fdiv, show decide (m1 < 0) = false from by simp [not_lt.mpr hm1]]
    exact Or.inr (Or.inl rfl)
  · simp only [fdiv, show decide (m1 < 0) = false from by simp [not_lt.mpr hm1],
      show decide (m2 < 0) = false from by simp [not_lt.mpr hm2]]
    split_ifs with ha hb
    · exact Or.inr (Or.inr (Or.inl ⟨_, rfl⟩))
    · exact Or.inr (Or.inl rfl)
    · simp only [divRound, show (decide (m1 < 0) != decide (m2 < 0)) = false from by
        simp [not_lt.mpr hm1, not_lt.mpr hm2]]
      exact packF_false_nnShape ..

theorem nonnegOrNan_of_nnShape (x : F) (h : nnShape x) : nonnegOrNan x = true := by
  rcases h with rfl | rfl | ⟨s, rfl⟩ | ⟨m, e, rfl, hm⟩
  · rfl
  · rfl
  · rfl
  · simp only [nonnegOrNan, F.isNaN, fge, fle, flt, feq, Bool.false_or]
    rcases lt_or_eq_of_le hm with h1 | h1
    · simp [h1]
    · simp [h1.symm]

/-- Claim C8: the real part of `Complex::sqrt` is never negative — it is
`≥ 0.0` under IEEE comparison (which accepts `-0.0`) or NaN, for every
input and every platform `hypot`, assuming only the platform guarantee
that `hypot` compares equal to zero only when the second component does. -/
theorem c8_sqrt_real_nonneg (φ : Fmt) (L : Libm) (z : Complex F)
    (hhz : ∀ x y : F, feq (L.hypot x y) (.zero false) = true →
      feq y (.zero false) = true) :
    nonnegOrNan (Complex.sqrt φ L z).r = true := by
  simp only [Complex.sqrt]
  by_cases h1 : feq z.i (.zero false) = true
  · simp only [h1, if_true]
    by_cases h2 : fge z.r (.zero false) = true
    · simp only [h2, if_true]
      exact nonnegOrNan_of_nnShape _ (sqrtF_nnShape ..)
    · simp only [h2, Bool.false_eq_true, if_false]
      rfl
  · simp only [h1, Bool.false_eq_true, if_false]
    by_cases h3 : feq (fadd φ (Complex.abs L z) z.r) (.zero false) = true
    · simp only [h3, Bool.not_true, Bool.false_eq_true, if_false]
      have hzr : z.r ≠ .zero false := by
        intro hzr
        rw [hzr] at h3
        cases hr : Complex.abs L z with
        | nan => rw [hr] at h3; simp [fadd, feq] at h3
        | inf t => rw [hr] at h3; simp [fadd, feq] at h3
        | zero t =>
          have hcon := hhz z.r z.i
            (by rw [show L.hypot z.r z.i = Complex.abs L z from rfl, hr]; rfl)
          exact absurd hcon h1
        | nz mu eu =>
          rw [hr] at h3
          have hmu : mu = 0 := by simpa [fadd, feq, deqD] using h3
          have hcon := hhz z.r z.i
            (by rw [show L.hypot z.r z.i = Complex.abs L z from rfl, hr, hmu]; rfl)
          exact absurd hcon h1
      have hn : fneg z.r ≠ .zero true := by
        intro hc
        apply hzr
        cases hzr2 : z.r with
        | nan => rw [hzr2] at hc; simp [fneg] at hc
        | inf t => rw [hzr2] at hc; simp [fneg] at hc
        | zero t =>
          rw [hzr2] at hc
          simp only [fneg, F.zero.injEq] at hc
          cases t with
          | false => rfl
          | true => simp at hc
        | nz mm ee => rw [hzr2] at hc; simp [fneg] at hc
      exact nonnegOrNan_of_nnShape _
        (fdiv_nn_pos φ _ _
          (fmul_nnShape φ _ _ (Or.inr (Or.inr (Or.inr ⟨1, -1, rfl, by omega⟩)))
            (nnShape_fabs _))
          (sqrtF_posShape φ _ hn))
    · simp only [h3, Bool.not_false, if_true]
      exact nonnegOrNan_of_nnShape _
        (fmul_nnShape φ _ _ (sqrtF_nnShape ..) (sqrtF_nnShape ..))

theorem c8_witness :
    nonnegOrNan (Complex.sqrt f64fmt
      ⟨fun _ y => fabs y, fun _ _ => F.nan, fun _ => F.nan, fun _ => F.nan,
        fun _ => F.nan⟩
      ⟨.nz 1 0, .nz 1 0⟩).r = true :=
  c8_sqrt_real_nonneg f64fmt _ _ (by
    intro x y h
    cases y <;> simp_all [fabs, feq, deqD] <;> omega)

end Imaginary
